import Mathlib

/-!
Verification development for the redb storage engine sources
(`src/types.rs`, `src/tuple_types.rs`, `src/table.rs`,
`src/tree_store/page_store/utils.rs`).

Byte strings are modelled as `List Nat` (each element a byte value),
machine integers as `Nat`/`Int` with explicit bounds, Rust panics
(`unwrap`, slice-index-out-of-bounds) as `Option.none`, and `Result`
values as `Except`.
-/

namespace Redb

/-- Byte strings. -/
abbrev Bytes := List Nat

/-- Little-endian encoding of `a` into exactly `w` bytes
(Rust `to_le_bytes`; a value wider than `w` bytes is truncated,
matching an `as` cast). -/
def toLeBytes (w a : Nat) : Bytes :=
  match w with
  | 0 => []
  | wp + 1 => (a % 256) :: toLeBytes wp (a / 256)

/-- Little-endian decoding of a byte string (Rust `from_le_bytes`). -/
def fromLeBytes : Bytes → Nat
  | [] => 0
  | b :: rest => b + 256 * fromLeBytes rest

/-- `u8`/`u16`/`u32`/`u64`/`u128` `RedbValue::as_bytes` (`src/types.rs`,
macro `be_value!`): `self.to_le_bytes()`, for word width `w` bytes. -/
def uint_as_bytes (w a : Nat) : Bytes := toLeBytes w a

/-- Unsigned `RedbValue::from_bytes` (`src/types.rs`, macro `be_value!`):
`from_le_bytes(data.try_into().unwrap())`; the `unwrap` panics
(modelled as `none`) unless the slice has exactly `w` bytes. -/
def uint_from_bytes (w : Nat) (data : Bytes) : Option Nat :=
  if data.length = w then some (fromLeBytes data) else none

/-- Unsigned `RedbKey::compare` (`src/types.rs`, macro `be_impl!`):
`Self::from_bytes(data1).cmp(&Self::from_bytes(data2))`. -/
def uint_compare (w : Nat) (data1 data2 : Bytes) : Option Ordering := do
  let a ← uint_from_bytes w data1
  let b ← uint_from_bytes w data2
  pure (Ord.compare a b)

/-- `i8`..`i128` `RedbValue::as_bytes`: `self.to_le_bytes()` — the
two's-complement little-endian bytes of the signed value. -/
def int_as_bytes (w : Nat) (a : Int) : Bytes :=
  toLeBytes w (a % (2 ^ (8 * w) : Int)).toNat

/-- Signed `RedbValue::from_bytes`: decode `w` little-endian bytes and
reinterpret the two's-complement pattern as a signed value. -/
def int_from_bytes (w : Nat) (data : Bytes) : Option Int :=
  if data.length = w then
    let n := fromLeBytes data
    some (if n < 2 ^ (8 * w - 1) then (n : Int) else (n : Int) - 2 ^ (8 * w))
  else none

/-- Signed `RedbKey::compare` (`src/types.rs`, macro `be_impl!`). -/
def int_compare (w : Nat) (data1 data2 : Bytes) : Option Ordering := do
  let a ← int_from_bytes w data1
  let b ← int_from_bytes w data2
  pure (Ord.compare a b)

/-- Rust `Ord` on byte slices: lexicographic, shorter-prefix-first. -/
def byteListCmp : Bytes → Bytes → Ordering
  | [], [] => .eq
  | [], _ :: _ => .lt
  | _ :: _, [] => .gt
  | a :: as_, b :: bs =>
    match Ord.compare a b with
    | .eq => byteListCmp as_ bs
    | o => o

/-- `impl RedbValue for &[u8]::as_bytes` (`src/types.rs`): identity. -/
def byte_slice_as_bytes (data : Bytes) : Bytes := data

/-- `impl RedbKey for &[u8]::compare` (`src/types.rs`):
`data1.cmp(data2)`. -/
def byte_slice_compare (data1 data2 : Bytes) : Ordering :=
  byteListCmp data1 data2

/-- A UTF-8 continuation byte (`0x80..=0xBF`). -/
def utf8Cont (c : Nat) : Bool := 0x80 ≤ c && c ≤ 0xBF

/-- UTF-8 validity of a byte string, as checked by Rust
`std::str::from_utf8` (RFC 3629: surrogates and values above
`U+10FFFF` excluded, shortest-form encodings only). -/
def validUtf8 : List Nat → Bool
  | [] => true
  | b :: rest =>
    if b < 0x80 then validUtf8 rest
    else if b < 0xC2 then false
    else if b ≤ 0xDF then
      match rest with
      | c1 :: r => utf8Cont c1 && validUtf8 r
      | [] => false
    else if b = 0xE0 then
      match rest with
      | c1 :: c2 :: r => (0xA0 ≤ c1 && c1 ≤ 0xBF) && utf8Cont c2 && validUtf8 r
      | _ => false
    else if b = 0xED then
      match rest with
      | c1 :: c2 :: r => (0x80 ≤ c1 && c1 ≤ 0x9F) && utf8Cont c2 && validUtf8 r
      | _ => false
    else if b ≤ 0xEF then
      match rest with
      | c1 :: c2 :: r => utf8Cont c1 && utf8Cont c2 && validUtf8 r
      | _ => false
    else if b = 0xF0 then
      match rest with
      | c1 :: c2 :: c3 :: r =>
        (0x90 ≤ c1 && c1 ≤ 0xBF) && utf8Cont c2 && utf8Cont c3 && validUtf8 r
      | _ => false
    else if b ≤ 0xF3 then
      match rest with
      | c1 :: c2 :: c3 :: r => utf8Cont c1 && utf8Cont c2 && utf8Cont c3 && validUtf8 r
      | _ => false
    else if b = 0xF4 then
      match rest with
      | c1 :: c2 :: c3 :: r =>
        (0x80 ≤ c1 && c1 ≤ 0x8F) && utf8Cont c2 && utf8Cont c3 && validUtf8 r
      | _ => false
    else false

/-- A Rust `str` value: a byte string that is valid UTF-8 by
construction. -/
def RStr := {l : Bytes // validUtf8 l = true}

/-- `impl RedbValue for str::as_bytes` (`src/types.rs`): the string's
own bytes (`self`). -/
def str_as_bytes (s : RStr) : Bytes := s.val

/-- `impl RedbValue for str::from_bytes` and
`impl RedbValue for &str::from_bytes` (`src/types.rs`):
`std::str::from_utf8(data).unwrap()` — a view over `data` itself when
it is valid UTF-8; the `unwrap` panics (modelled as `none`) otherwise. -/
def str_from_bytes (data : Bytes) : Option Bytes :=
  if validUtf8 data then some data else none

/-- `impl RedbKey for str::compare` (`src/types.rs`): decode both
slices with `str::from_bytes` and compare with Rust `str::cmp`
(bytewise on the UTF-8 bytes). -/
def str_compare (data1 data2 : Bytes) : Option Ordering := do
  let s1 ← str_from_bytes data1
  let s2 ← str_from_bytes data2
  pure (byteListCmp s1 s2)

/-- `get_page_size` for `cfg(not(unix))`
(`src/tree_store/page_store/utils.rs`): the constant 4096. -/
def get_page_size_non_unix : Nat := 4096

/-- The outcome of `self.tree.len()` for a table, with error type `E`
(`BtreeMut::len` / `Btree::len` live outside the provided sources, so
the outcome is kept abstract). -/
structure BtreeLenOutcome (E : Type) where
  lenResult : Except E Nat

/-- `Table::len` (`src/table.rs`): `self.tree.len()`. -/
def Table.len {E : Type} (t : BtreeLenOutcome E) : Except E Nat :=
  t.lenResult

/-- `Table::is_empty` (`src/table.rs`):
`self.len().map(|x| x == 0)`. -/
def Table.is_empty {E : Type} (t : BtreeLenOutcome E) : Except E Bool :=
  (Table.len t).map (fun x => decide (x = 0))

/-- `ReadOnlyTable::len` (`src/table.rs`): `self.tree.len()`. -/
def ReadOnlyTable.len {E : Type} (t : BtreeLenOutcome E) : Except E Nat :=
  t.lenResult

/-- `ReadOnlyTable::is_empty` (`src/table.rs`):
`self.len().map(|x| x == 0)`. -/
def ReadOnlyTable.is_empty {E : Type} (t : BtreeLenOutcome E) : Except E Bool :=
  (ReadOnlyTable.len t).map (fun x => decide (x = 0))

/-- Bounds-checked subslice `data[start..stop]` (Rust slicing panics,
modelled as `none`, when the bounds do not hold). -/
def slice? (data : Bytes) (start stop : Nat) : Option Bytes :=
  if start ≤ stop ∧ stop ≤ data.length then
    some ((data.drop start).take (stop - start))
  else none

/-- Bounds-checked tail `data[start..]`. -/
def sliceFrom? (data : Bytes) (start : Nat) : Option Bytes :=
  if start ≤ data.length then some (data.drop start) else none

/-- `serialize_tuple_elements` (`src/tuple_types.rs`): push a 4-byte
little-endian length prefix (`len as u32` truncates) for every slice
but the last, then push every slice. -/
def serialize_tuple_elements (slices : List Bytes) : Bytes :=
  let lenBlocks :=
    (slices.take (slices.length - 1)).foldl
      (fun out s => out ++ toLeBytes 4 s.length) []
  slices.foldl (fun out s => out ++ s) lenBlocks

/-- `parse_lens::<N>` (`src/tuple_types.rs`): read `n` 4-byte
little-endian values at offsets `4*i`; the slicing/`try_into` panics
(modelled as `none`) when the data is shorter than `4*n`. -/
def parse_lens (n : Nat) (data : Bytes) : Option (List Nat) :=
  if 4 * n ≤ data.length then
    some ((List.range n).map (fun i => fromLeBytes ((data.drop (4 * i)).take 4)))
  else none

/-- A `RedbKey::compare` function over byte slices. -/
abbrev KeyCmp := Bytes → Bytes → Ordering

/-- `not_equal::<T>` (`src/tuple_types.rs`): `Some` of the ordering
when `T::compare` is not `Equal`, `None` otherwise. -/
def not_equal (cmp : KeyCmp) (data1 data2 : Bytes) : Option Ordering :=
  match cmp data1 data2 with
  | .lt => some .lt
  | .eq => none
  | .gt => some .gt

/-- The per-component walk shared by every tuple `RedbKey::compare`
impl in `src/tuple_types.rs`: for each component except the last,
slice `len` bytes out of both inputs at the running offsets and stop
at the first `not_equal` result; compare the remaining tails with the
last component's comparator. -/
def tuple_compare_from (cs : List KeyCmp) (ls0 ls1 : List Nat)
    (d1 d2 : Bytes) (o0 o1 : Nat) : Option Ordering :=
  match cs, ls0, ls1 with
  | [c], [], [] => do
    let s1 ← sliceFrom? d1 o0
    let s2 ← sliceFrom? d2 o1
    pure (c s1 s2)
  | c :: cs', l0 :: ls0', l1 :: ls1' => do
    let s1 ← slice? d1 o0 (o0 + l0)
    let s2 ← slice? d2 o1 (o1 + l1)
    match not_equal c s1 s2 with
    | some ord => pure ord
    | none => tuple_compare_from cs' ls0' ls1' d1 d2 (o0 + l0) (o1 + l1)
  | _, _, _ => none

/-- An n-tuple `RedbKey::compare` (`src/tuple_types.rs`, arity
`cs.length`): parse `n−1` length prefixes from each input and walk the
components. -/
def tuple_compare (cs : List KeyCmp) (d1 d2 : Bytes) : Option Ordering := do
  let ls0 ← parse_lens (cs.length - 1) d1
  let ls1 ← parse_lens (cs.length - 1) d2
  tuple_compare_from cs ls0 ls1 d1 d2 (4 * (cs.length - 1)) (4 * (cs.length - 1))

/-- Lexicographic component order: the result of the component
comparator at the first index where the components compare non-equal,
and the last component's comparison when all earlier ones are equal. -/
def lexCompare (cs : List KeyCmp) (xs ys : List Bytes) : Ordering :=
  match cs, xs, ys with
  | [c], [x], [y] => c x y
  | c :: cs', x :: xs', y :: ys' =>
    match c x y with
    | .eq => lexCompare cs' xs' ys'
    | _ => c x y
  | _, _, _ => .eq

/-- The slicing pattern shared by every tuple `RedbValue::from_bytes`
impl in `src/tuple_types.rs`: slice `len` bytes per parsed length at
the running offset, and take the whole remainder as the last
component. -/
def tuple_split_tail (ls : List Nat) (data : Bytes) (off : Nat) :
    Option (List Bytes) :=
  match ls with
  | [] => do
    let s ← sliceFrom? data off
    pure [s]
  | l :: ls' => do
    let s ← slice? data off (off + l)
    let rest ← tuple_split_tail ls' data (off + l)
    pure (s :: rest)

/-- An n-tuple `RedbValue::from_bytes` (`src/tuple_types.rs`), up to
the final application of each `Ti::from_bytes`: the component byte
slices, in order. -/
def tuple_from_bytes_slices (n : Nat) (data : Bytes) : Option (List Bytes) := do
  let ls ← parse_lens (n - 1) data
  tuple_split_tail ls data (4 * (n - 1))

/-- The encoding C4 claims (stated from the spec sentence, for
comparison with `serialize_tuple_elements`): a 4-byte little-endian
length prefix for each of the `n` components, followed by the
concatenation of all `n` components. -/
def allPrefixEncoding (slices : List Bytes) : Bytes :=
  (slices.map (fun s => toLeBytes 4 s.length)).flatten ++ slices.flatten

/-- Modelled from the spec: `BtreeMut::insert` (called by
`Table::insert`, `src/table.rs`) is not under `src/`. §4.4: a B-tree
over byte keys ordered by the caller-supplied comparator; "inserting
an existing key replaces the value and returns the old one". The
contents are the comparator-sorted list of key/value pairs; the result
is the updated contents and the old value. -/
def btreeInsert (c : KeyCmp) (k v : Bytes) :
    List (Bytes × Bytes) → List (Bytes × Bytes) × Option Bytes
  | [] => ([(k, v)], none)
  | (k', v') :: rest =>
    match c k k' with
    | .lt => ((k, v) :: (k', v') :: rest, none)
    | .eq => ((k, v) :: rest, some v')
    | .gt =>
      let r := btreeInsert c k v rest
      ((k', v') :: r.1, r.2)

/-- Modelled from the spec: `Btree::get` (called by
`ReadableTable::get`, `src/table.rs`) is not under `src/`; point
lookup by the comparator over the sorted contents. -/
def btreeGet (c : KeyCmp) (k : Bytes) : List (Bytes × Bytes) → Option Bytes
  | [] => none
  | (k', v') :: rest =>
    match c k k' with
    | .lt => none
    | .eq => some v'
    | .gt => btreeGet c k rest

/-- Modelled from the spec: `BtreeMut::remove` (called by
`Table::remove`, `src/table.rs`) is not under `src/`. §4.4: "removing
a missing key is a no-op returning `None`"; removing a present key
returns the old value. -/
def btreeRemove (c : KeyCmp) (k : Bytes) :
    List (Bytes × Bytes) → List (Bytes × Bytes) × Option Bytes
  | [] => ([], none)
  | (k', v') :: rest =>
    match c k k' with
    | .lt => ((k', v') :: rest, none)
    | .eq => (rest, some v')
    | .gt =>
      let r := btreeRemove c k rest
      ((k', v') :: r.1, r.2)

/-- Modelled from the spec: `BtreeRangeIter` (wrapped by
`ReadableTable::range` / `RangeIter::next`, `src/table.rs`) is not
under `src/`. §4.4: the iterator over a bound pair — here the
inclusive-start/exclusive-end form of Rust `start..end` — yields the
pairs with `start ≤ key < end` in ascending key order (the contents
are kept comparator-sorted, so filtering preserves that order). -/
def btreeRange (c : KeyCmp) (start stop : Bytes)
    (t : List (Bytes × Bytes)) : List (Bytes × Bytes) :=
  t.filter (fun e =>
    !(decide (c start e.1 = Ordering.gt)) && decide (c e.1 stop = Ordering.lt))

theorem toLeBytes_length (w a : Nat) : (toLeBytes w a).length = w := by
  induction w generalizing a with
  | zero => rfl
  | succ wp ih => simp [toLeBytes, ih]

theorem fromLeBytes_toLeBytes (w a : Nat) :
    fromLeBytes (toLeBytes w a) = a % 2 ^ (8 * w) := by
  induction w generalizing a with
  | zero => simp [toLeBytes, fromLeBytes]; omega
  | succ wp ih =>
    have h2 : 2 ^ (8 * (wp + 1)) = 256 * 2 ^ (8 * wp) := by
      rw [Nat.mul_add, Nat.pow_add]
      ring
    rw [toLeBytes, fromLeBytes, ih, h2, Nat.mod_mul]

theorem byteListCmp_refl (l : Bytes) : byteListCmp l l = .eq := by
  induction l with
  | nil => rfl
  | cons a rest ih =>
    have h : compare a a = Ordering.eq := by simp [Nat.compare_eq_eq]
    simp [byteListCmp, h, ih]

theorem foldl_append_eq_join {α β : Type} (l : List α) (init : List β)
    (f : α → List β) :
    l.foldl (fun out s => out ++ f s) init = init ++ (l.map f).flatten := by
  induction l generalizing init with
  | nil => simp
  | cons a rest ih => simp [List.foldl, ih]

theorem serialize_tuple_elements_eq (slices : List Bytes) :
    serialize_tuple_elements slices =
      ((slices.take (slices.length - 1)).map
        (fun s => toLeBytes 4 s.length)).flatten ++ slices.flatten := by
  unfold serialize_tuple_elements
  rw [foldl_append_eq_join, foldl_append_eq_join]
  simp

theorem slice_pre_mid (pre mid tail : Bytes) :
    slice? (pre ++ (mid ++ tail)) pre.length (pre.length + mid.length) =
      some mid := by
  unfold slice?
  rw [if_pos]
  · rw [List.drop_left, Nat.add_sub_cancel_left, List.take_left]
  · constructor
    · omega
    · simp

theorem sliceFrom_pre (pre tail : Bytes) :
    sliceFrom? (pre ++ tail) pre.length = some tail := by
  unfold sliceFrom?
  rw [if_pos, List.drop_left]
  simp

theorem drop_take_join_blocks (blocks : List Bytes) (rest : Bytes)
    (hb : ∀ b ∈ blocks, b.length = 4) (i : Nat) (hi : i < blocks.length) :
    ((blocks.flatten ++ rest).drop (4 * i)).take 4 = blocks.get ⟨i, hi⟩ := by
  induction blocks generalizing i rest with
  | nil => simp at hi
  | cons b bs ih =>
    have hb4 : b.length = 4 := hb b (by simp)
    cases i with
    | zero =>
      simp only [Nat.mul_zero, List.drop_zero, List.flatten_cons, List.append_assoc]
      rw [← hb4, List.take_left]
      rfl
    | succ j =>
      have hj : j < bs.length := by simpa using hi
      have hdrop : ((b :: bs).flatten ++ rest).drop (4 * (j + 1)) =
          (bs.flatten ++ rest).drop (4 * j) := by
        rw [List.flatten_cons, List.append_assoc,
          show 4 * (j + 1) = b.length + 4 * j by omega, List.drop_append]
      rw [hdrop, ih rest (fun x hx => hb x (List.mem_cons_of_mem b hx)) j hj]
      rfl

theorem flatten_length_of_blocks (blocks : List Bytes)
    (hb : ∀ b ∈ blocks, b.length = 4) :
    blocks.flatten.length = 4 * blocks.length := by
  rw [List.length_flatten]
  have : blocks.map List.length = List.replicate blocks.length 4 :=
    List.eq_replicate.2 ⟨by simp, by simpa using hb⟩
  rw [this, List.sum_replicate, smul_eq_mul, Nat.mul_comm]

theorem parse_lens_of_blocks (blocks : List Bytes) (rest : Bytes)
    (hb : ∀ b ∈ blocks, b.length = 4) :
    parse_lens blocks.length (blocks.flatten ++ rest) =
      some (blocks.map fromLeBytes) := by
  have hjoin : blocks.flatten.length = 4 * blocks.length :=
    flatten_length_of_blocks blocks hb
  unfold parse_lens
  rw [if_pos (by simp [hjoin])]
  congr 1
  apply List.ext_get (by simp)
  intro i h1 h2
  have hi : i < blocks.length := by simpa using h2
  simp only [List.get_eq_getElem, List.getElem_map, List.getElem_range]
  rw [drop_take_join_blocks blocks rest hb i hi]
  rfl

theorem tuple_compare_from_correct (cs : List KeyCmp) (xs ys : List Bytes)
    (pre0 pre1 : Bytes) (hcx : cs.length = xs.length)
    (hxy : xs.length = ys.length) (hne : xs ≠ []) :
    tuple_compare_from cs ((xs.take (xs.length - 1)).map List.length)
      ((ys.take (ys.length - 1)).map List.length)
      (pre0 ++ xs.flatten) (pre1 ++ ys.flatten) pre0.length pre1.length =
      some (lexCompare cs xs ys) := by
  induction cs generalizing xs ys pre0 pre1 with
  | nil =>
    cases xs with
    | nil => exact absurd rfl hne
    | cons x xs' => simp at hcx
  | cons c cs' ih =>
    obtain ⟨x, xs', rfl⟩ : ∃ x xs', xs = x :: xs' := by
      cases xs with
      | nil => exact absurd rfl hne
      | cons x xs' => exact ⟨x, xs', rfl⟩
    obtain ⟨y, ys', rfl⟩ : ∃ y ys', ys = y :: ys' := by
      cases ys with
      | nil => simp at hxy
      | cons y ys' => exact ⟨y, ys', rfl⟩
    cases cs' with
    | nil =>
      obtain rfl : xs' = [] := by
        cases xs' with
        | nil => rfl
        | cons _ _ => simp at hcx
      obtain rfl : ys' = [] := by
        cases ys' with
        | nil => rfl
        | cons _ _ => simp at hxy
      simp only [List.length_cons, List.length_nil, Nat.add_sub_cancel,
        List.take_zero, List.map_nil, List.flatten_cons, List.flatten_nil,
        List.append_nil]
      simp [tuple_compare_from, sliceFrom_pre, lexCompare]
    | cons c2 cs'' =>
      have hxs' : xs' ≠ [] := by
        intro h
        subst h
        simp at hcx
      have hys' : ys' ≠ [] := by
        intro h
        subst h
        simp at hxy
        exact hxs' hxy
      have htake0 : (x :: xs').take ((x :: xs').length - 1) =
          x :: xs'.take (xs'.length - 1) := by
        cases xs' with
        | nil => exact absurd rfl hxs'
        | cons a l => simp
      have htake1 : (y :: ys').take ((y :: ys').length - 1) =
          y :: ys'.take (ys'.length - 1) := by
        cases ys' with
        | nil => exact absurd rfl hys'
        | cons a l => simp
      rw [htake0, htake1]
      simp only [List.map_cons, List.flatten_cons]
      simp only [tuple_compare_from]
      rw [slice_pre_mid pre0 x xs'.flatten, slice_pre_mid pre1 y ys'.flatten]
      simp only [Option.bind_eq_bind, Option.some_bind]
      cases hcmp : c x y with
      | eq =>
        simp only [not_equal, hcmp]
        have hre0 : pre0 ++ (x ++ xs'.flatten) = (pre0 ++ x) ++ xs'.flatten :=
          (List.append_assoc pre0 x xs'.flatten).symm
        have hre1 : pre1 ++ (y ++ ys'.flatten) = (pre1 ++ y) ++ ys'.flatten :=
          (List.append_assoc pre1 y ys'.flatten).symm
        have hoff0 : pre0.length + x.length = (pre0 ++ x).length := by simp
        have hoff1 : pre1.length + y.length = (pre1 ++ y).length := by simp
        rw [hre0, hre1, hoff0, hoff1]
        rw [ih xs' ys' (pre0 ++ x) (pre1 ++ y) (by simpa using hcx)
          (by simpa using hxy) hxs']
        simp [lexCompare, hcmp]
      | lt => simp [not_equal, hcmp, lexCompare]
      | gt => simp [not_equal, hcmp, lexCompare]

theorem tuple_split_tail_correct (xs : List Bytes) (pre : Bytes)
    (hne : xs ≠ []) :
    tuple_split_tail ((xs.take (xs.length - 1)).map List.length)
      (pre ++ xs.flatten) pre.length = some xs := by
  induction xs generalizing pre with
  | nil => exact absurd rfl hne
  | cons x xs' ih =>
    cases xs' with
    | nil =>
      simp only [List.length_cons, List.length_nil, Nat.add_sub_cancel,
        List.take_zero, List.map_nil, List.flatten_cons, List.flatten_nil,
        List.append_nil]
      simp [tuple_split_tail, sliceFrom_pre]
    | cons x2 xs'' =>
      have htake : (x :: x2 :: xs'').take ((x :: x2 :: xs'').length - 1) =
          x :: (x2 :: xs'').take ((x2 :: xs'').length - 1) := by simp
      rw [htake]
      rw [List.map_cons, List.flatten_cons]
      simp only [tuple_split_tail]
      rw [slice_pre_mid pre x (x2 :: xs'').flatten]
      simp only [Option.bind_eq_bind, Option.some_bind]
      have hre : pre ++ (x ++ (x2 :: xs'').flatten) =
          (pre ++ x) ++ (x2 :: xs'').flatten :=
        (List.append_assoc pre x _).symm
      have hoff : pre.length + x.length = (pre ++ x).length := by simp
      rw [hre, hoff, ih (pre ++ x) (by simp)]
      rfl

theorem uint_from_bytes_as_bytes (w a : Nat) (h : a < 2 ^ (8 * w)) :
    uint_from_bytes w (uint_as_bytes w a) = some a := by
  simp [uint_from_bytes, uint_as_bytes, toLeBytes_length, fromLeBytes_toLeBytes,
    Nat.mod_eq_of_lt h]

theorem int_from_bytes_as_bytes (w : Nat) (a : Int) (hw : 0 < w)
    (hlo : -(2 ^ (8 * w - 1)) ≤ a) (hhi : a < 2 ^ (8 * w - 1)) :
    int_from_bytes w (int_as_bytes w a) = some a := by
  have hcast1 : ((2 : Int) ^ (8 * w)) = ((2 ^ (8 * w) : Nat) : Int) := by
    push_cast
    ring
  have hcast2 : ((2 : Int) ^ (8 * w - 1)) = ((2 ^ (8 * w - 1) : Nat) : Int) := by
    push_cast
    ring
  have hNH : (2 ^ (8 * w) : Nat) = 2 * 2 ^ (8 * w - 1) := by
    have h8 : (8 * w - 1) + 1 = 8 * w := by omega
    calc (2 ^ (8 * w) : Nat) = 2 ^ ((8 * w - 1) + 1) := by rw [h8]
    _ = 2 ^ (8 * w - 1) * 2 := pow_succ _ _
    _ = 2 * 2 ^ (8 * w - 1) := by ring
  rw [hcast2] at hlo hhi
  unfold int_as_bytes int_from_bytes
  rw [hcast1]
  set H : Nat := 2 ^ (8 * w - 1) with hH
  set N : Nat := 2 ^ (8 * w) with hN
  have hlen : (toLeBytes w ((a % (N : Int)).toNat)).length = w := toLeBytes_length _ _
  rw [if_pos hlen, fromLeBytes_toLeBytes, ← hN]
  have hem0 : (0 : Int) ≤ a % (N : Int) := Int.emod_nonneg a (by positivity)
  have hem1 : a % (N : Int) < (N : Int) := Int.emod_lt_of_pos a (by positivity)
  have hmlt : (a % (N : Int)).toNat < N := by omega
  rw [Nat.mod_eq_of_lt hmlt]
  have hcase : a % (N : Int) = a ∨ a % (N : Int) = a + N := by
    rcases le_or_lt 0 a with hpos | hneg
    · left
      exact Int.emod_eq_of_lt hpos (by omega)
    · right
      have hrw : (a + (N : Int) * 1) % (N : Int) = a % (N : Int) :=
        Int.add_mul_emod_self_left a (N : Int) 1
      rw [mul_one] at hrw
      rw [← hrw]
      exact Int.emod_eq_of_lt (by omega) (by omega)
  dsimp only
  split
  · rename_i hlt
    simp only [Option.some.injEq]
    rcases hcase with hc | hc <;> omega
  · rename_i hge
    simp only [Option.some.injEq]
    rcases hcase with hc | hc <;> omega

/-- C8: when the OS page size cannot be queried (the `cfg(not(unix))`
variant), `get_page_size` returns exactly 4096. -/
theorem c8_get_page_size_fallback : get_page_size_non_unix = 4096 := rfl

/-- C9: for both `Table` and `ReadOnlyTable`, `is_empty()` returns
`Ok(true)` exactly when `len()` returns `Ok(0)`, returns `Ok(false)`
exactly when `len()` returns `Ok(n)` with `n > 0`, and returns the
same error whenever `len()` returns an error. -/
theorem c9_is_empty_iff_len_zero {E : Type} (t : BtreeLenOutcome E) :
    (Table.is_empty t = .ok true ↔ Table.len t = .ok 0) ∧
    (Table.is_empty t = .ok false ↔ ∃ n, Table.len t = .ok n ∧ 0 < n) ∧
    (∀ e, Table.len t = .error e → Table.is_empty t = .error e) ∧
    (ReadOnlyTable.is_empty t = .ok true ↔ ReadOnlyTable.len t = .ok 0) ∧
    (ReadOnlyTable.is_empty t = .ok false ↔
      ∃ n, ReadOnlyTable.len t = .ok n ∧ 0 < n) ∧
    (∀ e, ReadOnlyTable.len t = .error e → ReadOnlyTable.is_empty t = .error e) := by
  obtain ⟨r⟩ := t
  cases r with
  | error e =>
    simp [Table.is_empty, Table.len, ReadOnlyTable.is_empty, ReadOnlyTable.len,
      Except.map]
  | ok n =>
    simp only [Table.is_empty, Table.len, ReadOnlyTable.is_empty,
      ReadOnlyTable.len, Except.map]
    refine ⟨by simp, ?_, ?_, by simp, ?_, ?_⟩
    · simp only [Except.ok.injEq, decide_eq_false_iff_not]
      constructor
      · intro h
        exact ⟨n, rfl, by omega⟩
      · rintro ⟨m, hm, hpos⟩
        subst hm
        omega
    · intro e h
      cases h
    · simp only [Except.ok.injEq, decide_eq_false_iff_not]
      constructor
      · intro h
        exact ⟨n, rfl, by omega⟩
      · rintro ⟨m, hm, hpos⟩
        subst hm
        omega
    · intro e h
      cases h

/-- C6: for every built-in key type (byte slices, `str`, and the
fixed-width integers, modelled by their word width `w` in bytes),
`compare(as_bytes(a), as_bytes(b))` equals the type's natural order on
the values: numeric for unsigned and signed integers, bytewise for
slices and `str`. -/
theorem c6_builtin_compare_is_natural_order :
    (∀ w a b : Nat, a < 2 ^ (8 * w) → b < 2 ^ (8 * w) →
      uint_compare w (uint_as_bytes w a) (uint_as_bytes w b) =
        some (Ord.compare a b)) ∧
    (∀ (w : Nat) (a b : Int), 0 < w →
      -(2 ^ (8 * w - 1)) ≤ a → a < 2 ^ (8 * w - 1) →
      -(2 ^ (8 * w - 1)) ≤ b → b < 2 ^ (8 * w - 1) →
      int_compare w (int_as_bytes w a) (int_as_bytes w b) =
        some (Ord.compare a b)) ∧
    (∀ d1 d2 : Bytes,
      byte_slice_compare (byte_slice_as_bytes d1) (byte_slice_as_bytes d2) =
        byteListCmp d1 d2) ∧
    (∀ s1 s2 : RStr,
      str_compare (str_as_bytes s1) (str_as_bytes s2) =
        some (byteListCmp s1.val s2.val)) := by
  refine ⟨?_, ?_, ?_, ?_⟩
  · intro w a b ha hb
    simp [uint_compare, uint_from_bytes_as_bytes w a ha,
      uint_from_bytes_as_bytes w b hb]
  · intro w a b hw halo hahi hblo hbhi
    simp [int_compare, int_from_bytes_as_bytes w a hw halo hahi,
      int_from_bytes_as_bytes w b hw hblo hbhi]
  · intro d1 d2
    rfl
  · intro s1 s2
    simp [str_compare, str_from_bytes, str_as_bytes, s1.property, s2.property]

/-- Witness for C6 at concrete inputs: `u8` values 2 and 3 and `i8`
values −2 and 1. -/
theorem c6_builtin_compare_witness :
    uint_compare 1 (uint_as_bytes 1 2) (uint_as_bytes 1 3) =
      some (Ord.compare 2 3) ∧
    int_compare 1 (int_as_bytes 1 (-2)) (int_as_bytes 1 1) =
      some (Ord.compare (-2 : Int) 1) :=
  ⟨c6_builtin_compare_is_natural_order.1 1 2 3 (by norm_num) (by norm_num),
   c6_builtin_compare_is_natural_order.2.1 1 (-2) 1 (by norm_num) (by norm_num)
     (by norm_num) (by norm_num) (by norm_num)⟩

/-- C10: `str::from_bytes` (and the identical `&str::from_bytes`)
returns the string view without panicking on every byte slice that is
valid UTF-8 — in particular on any slice produced by `str::as_bytes` —
and its only failure point (the `unwrap`, modelled as `none`) is
reachable only on input that is not valid UTF-8. -/
theorem c10_str_from_bytes_total_on_utf8 :
    (∀ data : Bytes, validUtf8 data = true → str_from_bytes data = some data) ∧
    (∀ s : RStr, str_from_bytes (str_as_bytes s) = some (str_as_bytes s)) ∧
    (∀ data : Bytes, str_from_bytes data = none → validUtf8 data = false) := by
  refine ⟨?_, ?_, ?_⟩
  · intro data h
    simp [str_from_bytes, h]
  · intro s
    simp [str_from_bytes, str_as_bytes, s.property]
  · intro data h
    by_cases hv : validUtf8 data
    · simp [str_from_bytes, hv] at h
    · simpa using hv

/-- Witness for C10 at the concrete valid UTF-8 input "hi"
(bytes 104, 105). -/
theorem c10_str_from_bytes_witness :
    validUtf8 [104, 105] = true ∧ str_from_bytes [104, 105] = some [104, 105] :=
  ⟨by decide, c10_str_from_bytes_total_on_utf8.1 [104, 105] (by decide)⟩

theorem prefix_blocks_len4 (xs : List Bytes) :
    ∀ b ∈ (xs.take (xs.length - 1)).map (fun s => toLeBytes 4 s.length),
      b.length = 4 := by
  intro b hb
  simp only [List.mem_map] at hb
  obtain ⟨s, _, rfl⟩ := hb
  exact toLeBytes_length 4 _

theorem prefix_blocks_length (xs : List Bytes) :
    ((xs.take (xs.length - 1)).map (fun s => toLeBytes 4 s.length)).length =
      xs.length - 1 := by
  rw [List.length_map, List.length_take]
  omega

theorem prefix_blocks_decode (xs : List Bytes)
    (hxlen : ∀ b ∈ xs.take (xs.length - 1), b.length < 2 ^ 32) :
    ((xs.take (xs.length - 1)).map (fun s => toLeBytes 4 s.length)).map
        fromLeBytes =
      (xs.take (xs.length - 1)).map List.length := by
  rw [List.map_map]
  apply List.map_congr_left
  intro s hs
  simp only [Function.comp_apply]
  rw [fromLeBytes_toLeBytes]
  exact Nat.mod_eq_of_lt (show s.length < 2 ^ 32 from hxlen s hs)

/-- C3: for a tuple key of any arity `n = cs.length ≥ 2` whose
component comparators are `cs`, `RedbKey::compare` on the encodings of
two tuples (given as their component encodings `xs`, `ys`) returns the
lexicographic component order: the result of the component comparator
at the first non-equal index, and the last component's comparison when
all earlier components compare equal. -/
theorem c3_tuple_compare_lexicographic (cs : List KeyCmp) (xs ys : List Bytes)
    (hcx : cs.length = xs.length) (hxy : xs.length = ys.length)
    (h2 : 2 ≤ xs.length)
    (hxlen : ∀ b ∈ xs.take (xs.length - 1), b.length < 2 ^ 32)
    (hylen : ∀ b ∈ ys.take (ys.length - 1), b.length < 2 ^ 32) :
    tuple_compare cs (serialize_tuple_elements xs)
        (serialize_tuple_elements ys) =
      some (lexCompare cs xs ys) := by
  have hne : xs ≠ [] := by
    intro h
    subst h
    simp at h2
  unfold tuple_compare
  rw [serialize_tuple_elements_eq xs, serialize_tuple_elements_eq ys]
  set B0 := (xs.take (xs.length - 1)).map (fun s => toLeBytes 4 s.length)
    with hB0
  set B1 := (ys.take (ys.length - 1)).map (fun s => toLeBytes 4 s.length)
    with hB1
  have hb0 : ∀ b ∈ B0, b.length = 4 := prefix_blocks_len4 xs
  have hb1 : ∀ b ∈ B1, b.length = 4 := prefix_blocks_len4 ys
  have hn0 : B0.length = xs.length - 1 := prefix_blocks_length xs
  have hn1 : B1.length = ys.length - 1 := prefix_blocks_length ys
  rw [show cs.length - 1 = B0.length from by omega]
  nth_rewrite 2 [show B0.length = B1.length from by omega]
  rw [parse_lens_of_blocks B0 xs.flatten hb0,
    parse_lens_of_blocks B1 ys.flatten hb1]
  simp only [Option.bind_eq_bind, Option.some_bind]
  have hd0 : B0.map fromLeBytes = (xs.take (xs.length - 1)).map List.length := by
    rw [hB0]
    exact prefix_blocks_decode xs hxlen
  have hd1 : B1.map fromLeBytes = (ys.take (ys.length - 1)).map List.length := by
    rw [hB1]
    exact prefix_blocks_decode ys hylen
  rw [hd0, hd1]
  have hf0 : 4 * B0.length = B0.flatten.length :=
    (flatten_length_of_blocks B0 hb0).symm
  have hf1 : 4 * B0.length = B1.flatten.length := by
    rw [show B0.length = B1.length from by omega]
    exact (flatten_length_of_blocks B1 hb1).symm
  nth_rewrite 2 [hf1]
  rw [hf0]
  exact tuple_compare_from_correct cs xs ys B0.flatten B1.flatten hcx hxy hne

/-- Witness for C3 at a concrete pair of 2-tuples with byte-slice
components: `([1], [2])` vs `([1], [3])` under bytewise comparison. -/
theorem c3_tuple_compare_witness :
    tuple_compare [byteListCmp, byteListCmp]
        (serialize_tuple_elements [[1], [2]])
        (serialize_tuple_elements [[1], [3]]) =
      some (lexCompare [byteListCmp, byteListCmp] [[1], [2]] [[1], [3]]) :=
  c3_tuple_compare_lexicographic [byteListCmp, byteListCmp] [[1], [2]]
    [[1], [3]] rfl rfl (by decide) (by decide) (by decide)

/-- C4 counterexample: for the 2-tuple with component encodings `[7]`
and `[8, 9]`, `serialize_tuple_elements` does not produce a 4-byte
length prefix for each of the 2 components followed by the
concatenation (it emits only one prefix, for the first component). -/
theorem c4_serialize_counterexample :
    serialize_tuple_elements [[7], [8, 9]] ≠
      allPrefixEncoding [[7], [8, 9]] := by
  decide

/-- C4 (amended): for every tuple of `n ≥ 2` components, `as_bytes`
produces a 4-byte little-endian length prefix for each of the first
`n − 1` components (the last component's length is implicit), followed
by the concatenation of all `n` components' serialized bytes. -/
theorem c4_serialize_prefix_all_but_last (slices : List Bytes)
    (h2 : 2 ≤ slices.length) :
    serialize_tuple_elements slices =
      ((slices.take (slices.length - 1)).map
        (fun s => toLeBytes 4 s.length)).flatten ++ slices.flatten :=
  serialize_tuple_elements_eq slices

/-- Witness for C4 (amended) at the concrete 2-tuple with component
encodings `[7]` and `[8, 9]`. -/
theorem c4_serialize_witness :
    serialize_tuple_elements [[7], [8, 9]] =
      ((([[7], [8, 9]] : List Bytes).take
          (([[7], [8, 9]] : List Bytes).length - 1)).map
        (fun s => toLeBytes 4 s.length)).flatten ++
        ([[7], [8, 9]] : List Bytes).flatten :=
  c4_serialize_prefix_all_but_last [[7], [8, 9]] (by decide)

theorem tuple_from_bytes_slices_serialize (xs : List Bytes)
    (h2 : 2 ≤ xs.length)
    (hxlen : ∀ b ∈ xs.take (xs.length - 1), b.length < 2 ^ 32) :
    tuple_from_bytes_slices xs.length (serialize_tuple_elements xs) =
      some xs := by
  have hne : xs ≠ [] := by
    intro h
    subst h
    simp at h2
  unfold tuple_from_bytes_slices
  rw [serialize_tuple_elements_eq xs]
  set B0 := (xs.take (xs.length - 1)).map (fun s => toLeBytes 4 s.length)
    with hB0
  have hb0 : ∀ b ∈ B0, b.length = 4 := prefix_blocks_len4 xs
  have hn0 : B0.length = xs.length - 1 := prefix_blocks_length xs
  rw [show xs.length - 1 = B0.length from hn0.symm]
  rw [parse_lens_of_blocks B0 xs.flatten hb0]
  simp only [Option.bind_eq_bind, Option.some_bind]
  have hd0 : B0.map fromLeBytes = (xs.take (xs.length - 1)).map List.length := by
    rw [hB0]
    exact prefix_blocks_decode xs hxlen
  rw [hd0, show 4 * B0.length = B0.flatten.length from
    (flatten_length_of_blocks B0 hb0).symm]
  exact tuple_split_tail_correct xs B0.flatten hne

/-- C5: for a tuple of `n ≥ 2` components whose component codecs
round-trip — the decoders `ds` applied to the component encodings `xs`
give back the component views `views` — `from_bytes` applied to
`as_bytes` of the tuple recovers exactly the component slices, so the
decoded views equal the tuple's component views, in order. -/
theorem c5_tuple_from_bytes_roundtrip {α : Type} (ds : List (Bytes → α))
    (xs : List Bytes) (views : List α) (h2 : 2 ≤ xs.length)
    (hds : ds.length = xs.length)
    (hxlen : ∀ b ∈ xs.take (xs.length - 1), b.length < 2 ^ 32)
    (hrt : List.zipWith (fun d b => d b) ds xs = views) :
    (tuple_from_bytes_slices xs.length (serialize_tuple_elements xs)).map
        (fun ss => List.zipWith (fun d b => d b) ds ss) =
      some views := by
  rw [tuple_from_bytes_slices_serialize xs h2 hxlen, Option.map_some', hrt]

/-- Witness for C5 at the concrete 2-tuple with byte-slice components
`[1]` and `[2]` and identity decoders. -/
theorem c5_tuple_from_bytes_witness :
    (tuple_from_bytes_slices ([[1], [2]] : List Bytes).length
        (serialize_tuple_elements [[1], [2]])).map
        (fun ss => List.zipWith (fun (d : Bytes → Bytes) b => d b)
          [fun b => b, fun b => b] ss) =
      some [[1], [2]] :=
  c5_tuple_from_bytes_roundtrip [fun b => b, fun b => b] [[1], [2]]
    [[1], [2]] (by decide) rfl (by decide) rfl

/-- C1: `Table::insert(k, v)` returns the value previously associated
with `k` (`Some old` when `k` was present, `None` when absent), and
afterwards `k` maps to `v`. The comparator need only be reflexive at
`k`. Settled against the spec-modelled B-tree. -/
theorem c1_insert_returns_old_and_updates (c : KeyCmp) (k v : Bytes)
    (t : List (Bytes × Bytes)) (hrefl : c k k = .eq) :
    (btreeInsert c k v t).2 = btreeGet c k t ∧
    btreeGet c k (btreeInsert c k v t).1 = some v := by
  constructor
  · induction t with
    | nil => rfl
    | cons p rest ih =>
      obtain ⟨k', v'⟩ := p
      simp only [btreeInsert, btreeGet]
      cases c k k' <;> simp [ih]
  · induction t with
    | nil => simp [btreeInsert, btreeGet, hrefl]
    | cons p rest ih =>
      obtain ⟨k', v'⟩ := p
      simp only [btreeInsert]
      cases hck : c k k' with
      | lt => simp [btreeGet, hrefl]
      | eq => simp [btreeGet, hrefl]
      | gt => simp [btreeGet, hck, ih]

/-- Witness for C1: inserting key `[97]` into the empty table under
bytewise comparison. -/
theorem c1_insert_witness :
    byteListCmp [97] [97] = .eq ∧
    ((btreeInsert byteListCmp [97] [1] []).2 = btreeGet byteListCmp [97] [] ∧
      btreeGet byteListCmp [97] (btreeInsert byteListCmp [97] [1] []).1 =
        some [1]) :=
  ⟨by decide, c1_insert_returns_old_and_updates byteListCmp [97] [1] []
    (by decide)⟩

/-- C2: `Table::remove(k)` returns the value previously associated
with `k` (`None` when `k` was absent, `Some old` when present), and
when `k` is absent the table's contents are unchanged. Settled against
the spec-modelled B-tree. -/
theorem c2_remove_missing_is_noop (c : KeyCmp) (k : Bytes)
    (t : List (Bytes × Bytes)) :
    (btreeRemove c k t).2 = btreeGet c k t ∧
    (btreeGet c k t = none → (btreeRemove c k t).1 = t) := by
  constructor
  · induction t with
    | nil => rfl
    | cons p rest ih =>
      obtain ⟨k', v'⟩ := p
      simp only [btreeRemove, btreeGet]
      cases c k k' <;> simp [ih]
  · induction t with
    | nil =>
      intro _
      rfl
    | cons p rest ih =>
      obtain ⟨k', v'⟩ := p
      intro hget
      simp only [btreeGet] at hget
      simp only [btreeRemove]
      cases hck : c k k' with
      | lt => rfl
      | eq => simp [hck] at hget
      | gt =>
        rw [hck] at hget
        simp only at hget
        simp [ih hget]

/-- Witness for C2: removing key `[97]` from the empty table under
bytewise comparison. -/
theorem c2_remove_witness :
    (btreeRemove byteListCmp [97] []).2 = btreeGet byteListCmp [97] [] ∧
    (btreeRemove byteListCmp [97] []).1 = ([] : List (Bytes × Bytes)) :=
  ⟨(c2_remove_missing_is_noop byteListCmp [97] []).1,
   (c2_remove_missing_is_noop byteListCmp [97] []).2 (by decide)⟩

/-- C7: after inserting `"a"→0`, `"b"→1`, `"c"→2` (`str` keys as their
UTF-8 bytes, `u64` values as their 8-byte encodings), the range
`"a".."c"` yields exactly `("a",0)` then `("b",1)` — the end bound is
excluded. Settled against the spec-modelled B-tree. -/
theorem c7_range_a_to_c_scenario :
    btreeRange byteListCmp [97] [99]
        (btreeInsert byteListCmp [99] (uint_as_bytes 8 2)
          (btreeInsert byteListCmp [98] (uint_as_bytes 8 1)
            (btreeInsert byteListCmp [97] (uint_as_bytes 8 0) []).1).1).1 =
      [([97], uint_as_bytes 8 0), ([98], uint_as_bytes 8 1)] := by
  decide

end Redb
